import Mathlib

/-!
Verification of the `hrs` time-log tool (src/src/lib.rs, src/src/output.rs).

The embedding works over `List Char` (a Rust `&str` line, ASCII fragment).
Durations are modelled in whole minutes as `Int` (chrono `Duration` values
arising in this program are always whole minutes; `num_minutes` is exact).

Modelling notes, recorded once here:
* The regex `^([0-9\.]{1,5})-([0-9\.]{1,5})\s+(\[.*?\])?.*$` is embedded by
  the deterministic scanner `lineMatch`.  Because `-` and whitespace are not
  in the class `[0-9.]`, the greedy groups 1 and 2 are forced to be the
  maximal runs of class characters, so backtracking never changes the
  captures; the optional lazy group 3 matches a bracket `[...]` up to the
  first `]` exactly when one is present right after the whitespace run, and
  `.*$` requires that no newline occurs after the whitespace run (Rust's `.`
  does not match a newline, and `$` without multiline is end of haystack).
* Rust's `\s` also matches non-ASCII Unicode whitespace; the repository's
  fixtures, tests and all inputs of interest are ASCII, and this embedding
  models the ASCII fragment of `\s` (0x09..0x0D and 0x20).
* `NaiveTime::parse_from_str(time, "%H.%M")` reads one or two digits for the
  hour, a literal dot, one or two digits for the minute, requires the input
  to be exhausted, and requires hour <= 23 and minute <= 59; this is
  `parseHM`.  The `.unwrap()` on the parse result aborts the process on
  a parse error; that abort is modelled by the `LineResult.panic` outcome.
-/

/-- Model of the regex character class `[0-9.]`: a digit or a dot. -/
def classChar (c : Char) : Bool :=
  (0x30 ≤ c.toNat && c.toNat ≤ 0x39) || c.toNat = 0x2E

/-- Model of the ASCII fragment of the regex class `\s`. -/
def wsChar (c : Char) : Bool :=
  (0x9 ≤ c.toNat && c.toNat ≤ 0xD) || c.toNat = 0x20

/-- Holds when a character list contains no newline (regex `.` semantics). -/
def noNl (l : List Char) : Bool :=
  l.all (fun c => c ≠ '\n')

/-- Captures of the entry-line regex: group 1 (start time token), group 2
(end time token) and the optional group 3 (bracketed tag, brackets kept). -/
structure LineCaps where
  start : List Char
  stop : List Char
  bracket : Option (List Char)
  deriving DecidableEq

/-- Model of the lazy bracket group `(\[.*?\])?` applied right after the
whitespace run: if the text starts with `[` and a `]` occurs later, the
capture is the piece up to and including the first `]`. -/
def upToClose : List Char → Option (List Char)
  | [] => none
  | c :: r =>
    if c = ']' then some []
    else (upToClose r).map (fun inside => c :: inside)

/-- Capture of regex group 3, brackets included. -/
def bracketCap (rest : List Char) : Option (List Char) :=
  match rest with
  | '[' :: r => (upToClose r).map (fun inside => '[' :: (inside ++ [']']))
  | _ => none

/-- Model of `LINE_RE.captures(line)` for the anchored regex
`^([0-9\.]{1,5})-([0-9\.]{1,5})\s+(\[.*?\])?.*$`. -/
def lineMatch (l : List Char) : Option LineCaps :=
  let t1 := l.takeWhile classChar
  match l.dropWhile classChar with
  | '-' :: r2 =>
    let t2 := r2.takeWhile classChar
    match r2.dropWhile classChar with
    | c :: r4 =>
      if 1 ≤ t1.length && t1.length ≤ 5 && (1 ≤ t2.length && t2.length ≤ 5)
          && wsChar c then
        let rest := (c :: r4).dropWhile wsChar
        if noNl rest then some ⟨t1, t2, bracketCap rest⟩ else none
      else none
    | [] => none
  | _ => none

/-- Model of `with_mins`: append `.00` when the token has no dot. -/
def with_mins (t : List Char) : List Char :=
  if t.contains '.' then t else t ++ ['.', '0', '0']

/-- Numeric value of an ASCII digit. -/
def digitVal (c : Char) : Nat := c.toNat - 0x30

/-- An ASCII decimal digit. -/
def digitChar (c : Char) : Bool := 0x30 ≤ c.toNat && c.toNat ≤ 0x39

/-- Chrono-style numeric field scan: one or two leading digits, greedy. -/
def takeDigits2 : List Char → Option (Nat × List Char)
  | [] => none
  | c :: r =>
    if digitChar c then
      match r with
      | c2 :: r2 =>
        if digitChar c2 then some (digitVal c * 10 + digitVal c2, r2)
        else some (digitVal c, r)
      | [] => some (digitVal c, [])
    else none

/-- Model of `NaiveTime::parse_from_str(time, "%H.%M")`: 1-2 digit hour,
literal dot, 1-2 digit minute, whole input consumed, hour in 0..23 and
minute in 0..59.  `none` is the error the Rust code `.unwrap()`s. -/
def parseHM (t : List Char) : Option (Nat × Nat) :=
  match takeDigits2 t with
  | some (h, '.' :: r2) =>
    match takeDigits2 r2 with
    | some (m, []) => if h ≤ 23 && m ≤ 59 then some (h, m) else none
    | _ => none
  | _ => none

/-- Minutes after midnight of a parsed (hour, minute) pair, as `Int`. -/
def timeMin (p : Nat × Nat) : Int := (p.1 * 60 + p.2 : Nat)

/-- The carry-over marker written at the start of a tag. -/
def carryMarker : List Char := ['-', '"', '-']

/-- Tag text taken from the captures before carry-over resolution: the
bracketed capture when present, otherwise the line with the first
`start.length + stop.length + 2` characters removed (the Rust slice
`&line[format!("{}-{} ", start, end).len()..]`, which drops the time range,
the hyphen and exactly one whitespace character). -/
def rawTag (l : List Char) (caps : LineCaps) : List Char :=
  match caps.bracket with
  | some b => b
  | none => l.drop (caps.start.length + caps.stop.length + 2)

/-- Carry-over resolution, returning the resolved tag and the new value of
`prev_tag` (the Rust mutation of `*prev_tag`). -/
def resolveTag (t : List Char) (prev : Option (List Char)) :
    List Char × Option (List Char) :=
  match prev with
  | some pt => if carryMarker.isPrefixOf t then (pt, some pt) else (t, some t)
  | none => (t, some t)

/-- Outcome of processing one line: the line was skipped (regex did not
match), the process panicked (time-parse `.unwrap()` failed), or an entry
with a duration in minutes and a resolved tag was recorded. -/
inductive LineResult where
  | skip : LineResult
  | panic : LineResult
  | entry : Int → List Char → LineResult
  deriving DecidableEq

/-- Model of `process_line`, returning the outcome together with the value
of `prev_tag` after the call (the Rust code mutates `prev_tag` before it
parses the time tokens). -/
def process_line (l : List Char) (prev : Option (List Char)) :
    LineResult × Option (List Char) :=
  match lineMatch l with
  | none => (.skip, prev)
  | some caps =>
    let r := resolveTag (rawTag l caps) prev
    match parseHM (with_mins caps.start), parseHM (with_mins caps.stop) with
    | some s, some e => (.entry (timeMin e - timeMin s) r.1, r.2)
    | _, _ => (.panic, r.2)

/-- One trailing carriage return is dropped from a line that was terminated
by a newline (Rust `str::lines` treats `\r\n` as a line ending). -/
def stripCrEnd (l : List Char) : List Char :=
  if l.getLast? = some '\r' then l.dropLast else l

/-- Worker for `rustLines`, accumulating the current line in reverse. -/
def linesGo : List Char → List Char → List (List Char)
  | [], acc => if acc = [] then [] else [acc.reverse]
  | '\n' :: rest, acc => stripCrEnd acc.reverse :: linesGo rest []
  | c :: rest, acc => linesGo rest (c :: acc)

/-- Model of Rust `str::lines`: split at `\n` or `\r\n`, the final line
ending optional, a last piece without newline kept verbatim, the empty
string yielding no lines. -/
def rustLines (s : List Char) : List (List Char) :=
  linesGo s []

/-- Model of the day-header test in `find_and_collect_day`: the line equals
the date, or starts with the date followed by a space. -/
def headerMatch (line date : List Char) : Bool :=
  line == date || (date ++ [' ']).isPrefixOf line

/-- Collection of lines after the header: stop (exclusive) at the first
empty line, or at end of input. -/
def collectUntilBlank : List (List Char) → List (List Char)
  | [] => []
  | l :: ls => if l = [] then [] else l :: collectUntilBlank ls

/-- Scan for the first header line; once found, the header and the lines up
to the first blank are collected. -/
def findGo : List (List Char) → List Char → List (List Char)
  | [], _ => []
  | l :: ls, date =>
    if headerMatch l date then l :: collectUntilBlank ls else findGo ls date

/-- Model of `find_and_collect_day` from src/src/lib.rs. -/
def find_and_collect_day (content date : List Char) : List (List Char) :=
  findGo (rustLines content) date

/-- Modelled from the spec: a line "is exactly equal to the date or starts
with the date followed by a single space". -/
def headerMatchSpec (line date : List Char) : Bool :=
  line == date || line.take (date.length + 1) == date ++ [' ']

/-- Modelled from the spec: the day block is "the contiguous run of lines
beginning at the first line" matching the header, "extending up to but
excluding the first blank line after that header (or to end of input)";
when no line matches, the empty sequence. -/
def dayBlockSpec (ls : List (List Char)) (date : List Char) :
    List (List Char) :=
  match ls with
  | [] => []
  | h :: t =>
    if headerMatchSpec h date then h :: t.takeWhile (fun l => !l.isEmpty)
    else dayBlockSpec t date

/-- Sum of a list of durations, as the Rust loop folds them up. -/
def sumDur (ds : List Int) : Int := ds.foldl (· + ·) 0

/-- Lexicographic key order used by `sort_by(|a, b| a.0.cmp(b.0))`: Rust
`String` ordering is bytewise, which for the character lists here is the
code-point order. -/
def keyLe : List Char → List Char → Bool
  | [], _ => true
  | _ :: _, [] => false
  | a :: xs, b :: ys => if a = b then keyLe xs ys else decide (a < b)

/-- The tag map collected into a vector and sorted by tag, as in
`write_durations_collect_total`.  Rust's `sort_by` is a stable sort; a
stable insertion sort by the same key order produces the same list. -/
def sortTags (m : List (List Char × List Int)) :
    List (List Char × List Int) :=
  m.insertionSort (fun a b => keyLe a.1 b.1 = true)

/-- Model of `write_durations_collect_total`: per-tag sums are accumulated
over the sorted entries and the grand total is returned. -/
def write_durations_collect_total (m : List (List Char × List Int)) : Int :=
  (sortTags m).foldl (fun acc p => acc + sumDur p.2) 0

/-- The fixed expected workday, in minutes: 7 hours 30 minutes. -/
def full_day : Int := 7 * 60 + 30

/-- Model of the comparison in `write_total` / `print_total_and_diff`:
`diff = total - full_day`; `none` when the diff is zero (nothing further is
rendered), otherwise the signed diff. -/
def write_total_diff (total : Int) : Option Int :=
  if total - full_day = 0 then none else some (total - full_day)

/-- Zero-padded decimal rendering of Rust `{:02}`. -/
def pad2 (n : Nat) : List Char :=
  if n < 10 then '0' :: Nat.toDigits 10 n else Nat.toDigits 10 n

/-- Model of `HumanDuration::fmt` on a whole-minute duration `m`: the hour
field is `num_hours().abs()` (chrono `num_hours` truncates toward zero,
hence `Int.div`), the minute field is `num_minutes().abs() % 60`. -/
def humanFmt (m : Int) : List Char :=
  pad2 (m.tdiv 60).natAbs ++ ':' :: pad2 (m.natAbs % 60)

/-- Model of `HumanDuration::diff`: a leading `-` for a negative duration,
otherwise a leading `+`, followed by the `HH:MM` rendering. -/
def diffFmt (m : Int) : List Char :=
  (if m < 0 then ['-'] else ['+']) ++ humanFmt m

/-- Abbreviation turning a string literal into the character list the
embedding works over. -/
def str (s : String) : List Char := s.data

/-- Structural description of a line the regex accepts: two runs of
characters from `[0-9.]` of length 1 to 5 separated by a hyphen, at least
one whitespace character, then arbitrary text whose part after the
whitespace run contains no newline. -/
def entryShape (l : List Char) : Prop :=
  ∃ t1 t2 c ws rest,
    l = t1 ++ '-' :: (t2 ++ c :: (ws ++ rest)) ∧
    t1.all classChar = true ∧ 1 ≤ t1.length ∧ t1.length ≤ 5 ∧
    t2.all classChar = true ∧ 1 ≤ t2.length ∧ t2.length ≤ 5 ∧
    wsChar c = true ∧ ws.all wsChar = true ∧
    noNl (rest.dropWhile wsChar) = true

/-- Number of dots in a token. -/
def dotCount (t : List Char) : Nat := (t.filter (fun c => c = '.')).length

/-- Modelled from the claim's words: a time token "composed of digits and
at most one `.` and 1 to 5 characters long". -/
def claimTimeTok (t : List Char) : Bool :=
  t.all classChar && decide (1 ≤ t.length) && decide (t.length ≤ 5) &&
    decide (dotCount t ≤ 1)

/-- Modelled from the claim's words: the line shape the claim describes,
namely the accepted regex shape with both time tokens additionally limited
to at most one dot.  (The token runs are forced by the delimiters, so this
scan is equivalent to the claim's decomposition.) -/
def claimShape (l : List Char) : Bool :=
  match lineMatch l with
  | some caps => claimTimeTok caps.start && claimTimeTok caps.stop
  | none => false

example : process_line (str "8-9 desc without tag 1") none =
    (.entry 60 (str "desc without tag 1"), some (str "desc without tag 1")) := by
  decide

example : process_line (str "9-9.30 [tag1] desc") none =
    (.entry 30 (str "[tag1]"), some (str "[tag1]")) := by
  decide

example : process_line (str "9.45-10 -\"-") (some (str "[tag1]")) =
    (.entry 15 (str "[tag1]"), some (str "[tag1]")) := by
  decide

example : process_line (str "25-8 x") none = (.panic, some (str "x")) := by
  decide

example : process_line (str "no entry here") none = (.skip, none) := by
  decide

example : find_and_collect_day (str "x\n27.2\n--\nfoo\n\nrest") (str "27.2") =
    [str "27.2", str "--", str "foo"] := by
  decide

example : find_and_collect_day (str "x\n28.2 (day info)\nbar") (str "28.2") =
    [str "28.2 (day info)", str "bar"] := by
  decide

example : find_and_collect_day (str "a\nb") (str "28.02") = [] := by decide

example :
    write_durations_collect_total [(str "b", [30, 15]), (str "a", [60])] =
      105 := by
  decide

example : write_total_diff 450 = none := by decide
example : write_total_diff 480 = some 30 := by decide

example : humanFmt 0 = str "00:00" := by decide
example : humanFmt 90 = str "01:30" := by decide
example : humanFmt (-90) = str "01:30" := by decide
example : diffFmt (-90) = str "-01:30" := by decide

/-! ### Helper lemmas about run-based scanning -/

lemma takeWhile_all_append {p : Char → Bool} :
    ∀ {t : List Char} {c : Char} {r : List Char}, t.all p = true → p c = false →
      (t ++ c :: r).takeWhile p = t
  | [], c, r, _, hc => by simp [List.takeWhile, hc]
  | a :: t, c, r, ht, hc => by
    simp only [List.all_cons, Bool.and_eq_true] at ht
    simp [List.takeWhile, ht.1, takeWhile_all_append ht.2 hc]

lemma dropWhile_all_append {p : Char → Bool} :
    ∀ {t : List Char} {c : Char} {r : List Char}, t.all p = true → p c = false →
      (t ++ c :: r).dropWhile p = c :: r
  | [], c, r, _, hc => by simp [List.dropWhile, hc]
  | a :: t, c, r, ht, hc => by
    simp only [List.all_cons, Bool.and_eq_true] at ht
    simp [List.dropWhile, ht.1, dropWhile_all_append ht.2 hc]

lemma dropWhile_run_append {p : Char → Bool} :
    ∀ {t : List Char} {x : List Char}, t.all p = true →
      (t ++ x).dropWhile p = x.dropWhile p
  | [], x, _ => rfl
  | a :: t, x, ht => by
    simp only [List.all_cons, Bool.and_eq_true] at ht
    simp [List.dropWhile, ht.1, dropWhile_run_append ht.2]

lemma dropWhile_head_false {p : Char → Bool} :
    ∀ {l : List Char} {c : Char} {r : List Char}, l.dropWhile p = c :: r →
      p c = false
  | [], c, r, h => by simp at h
  | a :: l, c, r, h => by
    by_cases ha : p a
    · exact dropWhile_head_false (by simpa [List.dropWhile, ha] using h)
    · simp only [List.dropWhile, ha] at h
      cases h
      simpa using ha

lemma dropWhile_self {p : Char → Bool} (l : List Char) :
    (l.dropWhile p).dropWhile p = l.dropWhile p := by
  cases hl : l.dropWhile p with
  | nil => rfl
  | cons c r => simp [List.dropWhile, dropWhile_head_false hl]

/-! ### Helper lemmas about time parsing and `process_line` -/

lemma parseHM_bounds {t : List Char} {h m : Nat}
    (hp : parseHM t = some (h, m)) : h ≤ 23 ∧ m ≤ 59 := by
  unfold parseHM at hp
  split at hp
  · split at hp
    · split at hp
      · rename_i hcond
        simp only [Bool.and_eq_true, decide_eq_true_eq] at hcond
        cases hp
        exact hcond
      · exact absurd hp (by simp)
    · exact absurd hp (by simp)
  · exact absurd hp (by simp)

lemma process_line_no_match {l : List Char} {prev : Option (List Char)}
    (h : lineMatch l = none) : process_line l prev = (.skip, prev) := by
  simp [process_line, h]

lemma process_line_skip_match {l : List Char} {prev : Option (List Char)}
    {caps : LineCaps} (h : lineMatch l = some caps) :
    (process_line l prev).1 ≠ .skip := by
  simp only [process_line, h]
  cases parseHM (with_mins caps.start) <;> cases parseHM (with_mins caps.stop) <;>
    simp

lemma process_line_snd {l : List Char} {prev : Option (List Char)}
    {caps : LineCaps} (h : lineMatch l = some caps) :
    (process_line l prev).2 = (resolveTag (rawTag l caps) prev).2 := by
  simp only [process_line, h]
  cases parseHM (with_mins caps.start) <;> cases parseHM (with_mins caps.stop) <;>
    simp

lemma process_line_entry_tag {l : List Char} {prev p2 : Option (List Char)}
    {caps : LineCaps} {d : Int} {t : List Char} (h : lineMatch l = some caps)
    (he : process_line l prev = (.entry d t, p2)) :
    t = (resolveTag (rawTag l caps) prev).1 := by
  simp only [process_line, h] at he
  cases hs : parseHM (with_mins caps.start) <;>
    cases hep : parseHM (with_mins caps.stop) <;>
      simp [hs, hep] at he
  exact he.1.2.symm

lemma process_line_panic_of_bad_time {l : List Char}
    {prev : Option (List Char)} {caps : LineCaps} (h : lineMatch l = some caps)
    (hbad : parseHM (with_mins caps.start) = none ∨
      parseHM (with_mins caps.stop) = none) :
    (process_line l prev).1 = .panic := by
  simp only [process_line, h]
  cases hs : parseHM (with_mins caps.start) <;>
    cases hep : parseHM (with_mins caps.stop) <;> simp_all

lemma process_line_entry_inv {l : List Char} {prev p2 : Option (List Char)}
    {d : Int} {t : List Char} (he : process_line l prev = (.entry d t, p2)) :
    ∃ caps s e, lineMatch l = some caps ∧
      parseHM (with_mins caps.start) = some s ∧
      parseHM (with_mins caps.stop) = some e ∧
      d = timeMin e - timeMin s ∧
      t = (resolveTag (rawTag l caps) prev).1 ∧
      p2 = (resolveTag (rawTag l caps) prev).2 := by
  unfold process_line at he
  cases hm : lineMatch l with
  | none => simp [hm] at he
  | some caps =>
    simp only [hm] at he
    cases hs : parseHM (with_mins caps.start) <;>
      cases hep : parseHM (with_mins caps.stop) <;> simp [hs, hep] at he
    rename_i s e
    exact ⟨caps, s, e, rfl, hs, hep, he.1.1.symm, he.1.2.symm, he.2.symm⟩

/-! ### Inversion and construction lemmas for the regex model -/

lemma wsChar_not_class {c : Char} (h : wsChar c = true) :
    classChar c = false := by
  unfold wsChar at h
  unfold classChar
  rw [Bool.eq_false_iff]
  intro hc
  simp only [Bool.or_eq_true, Bool.and_eq_true, decide_eq_true_eq] at h hc
  omega

lemma dash_not_class : classChar '-' = false := by decide

lemma lineMatch_inv {l : List Char} {caps : LineCaps}
    (h : lineMatch l = some caps) :
    ∃ r2 c r4,
      caps.start = l.takeWhile classChar ∧
      l.dropWhile classChar = '-' :: r2 ∧
      caps.stop = r2.takeWhile classChar ∧
      r2.dropWhile classChar = c :: r4 ∧
      1 ≤ caps.start.length ∧ caps.start.length ≤ 5 ∧
      1 ≤ caps.stop.length ∧ caps.stop.length ≤ 5 ∧
      wsChar c = true ∧
      noNl ((c :: r4).dropWhile wsChar) = true ∧
      caps.bracket = bracketCap ((c :: r4).dropWhile wsChar) := by
  simp only [lineMatch] at h
  split at h
  · rename_i r2 heq
    split at h
    · rename_i c r4 heq2
      split at h
      · rename_i hcond
        split at h
        · rename_i hnl
          cases h
          simp only [Bool.and_eq_true, decide_eq_true_eq] at hcond
          obtain ⟨⟨⟨hA, hB⟩, hC, hD⟩, hE⟩ := hcond
          exact ⟨r2, c, r4, rfl, heq, rfl, heq2, hA, hB, hC, hD, hE, hnl, rfl⟩
        · exact absurd h (by simp)
      · exact absurd h (by simp)
    · exact absurd h (by simp)
  · exact absurd h (by simp)

lemma lineMatch_decomp {l : List Char} {caps : LineCaps}
    (h : lineMatch l = some caps) :
    ∃ c r4, l = caps.start ++ '-' :: (caps.stop ++ c :: r4) ∧
      wsChar c = true ∧
      caps.bracket = bracketCap ((c :: r4).dropWhile wsChar) := by
  obtain ⟨r2, c, r4, hs, hd, hst, hd2, -, -, -, -, hws, -, hbr⟩ := lineMatch_inv h
  refine ⟨c, r4, ?_, hws, hbr⟩
  have h1 : l = l.takeWhile classChar ++ l.dropWhile classChar :=
    (List.takeWhile_append_dropWhile classChar l).symm
  have h2 : r2 = r2.takeWhile classChar ++ r2.dropWhile classChar :=
    (List.takeWhile_append_dropWhile classChar r2).symm
  rw [h1, hd, ← hs, h2, hd2, ← hst]

lemma lineMatch_of_decomp {t1 t2 : List Char} {c : Char} {ws rest : List Char}
    (h1 : t1.all classChar = true) (h2 : 1 ≤ t1.length) (h3 : t1.length ≤ 5)
    (h4 : t2.all classChar = true) (h5 : 1 ≤ t2.length) (h6 : t2.length ≤ 5)
    (hc : wsChar c = true) (hws : ws.all wsChar = true)
    (hnl : noNl (rest.dropWhile wsChar) = true) :
    lineMatch (t1 ++ '-' :: (t2 ++ c :: (ws ++ rest))) =
      some ⟨t1, t2, bracketCap (rest.dropWhile wsChar)⟩ := by
  have hcc : classChar c = false := wsChar_not_class hc
  have hdrop : (c :: (ws ++ rest)).dropWhile wsChar = rest.dropWhile wsChar := by
    simp only [List.dropWhile, hc]
    exact dropWhile_run_append hws
  simp only [lineMatch, takeWhile_all_append h1 dash_not_class,
    dropWhile_all_append h1 dash_not_class,
    takeWhile_all_append h4 hcc, dropWhile_all_append h4 hcc]
  simp [h2, h3, h5, h6, hc, hdrop, hnl]

lemma upToClose_some :
    ∀ {r inside : List Char}, upToClose r = some inside →
      ']' ∉ inside ∧ ∃ after, r = inside ++ ']' :: after
  | [], inside, h => by simp [upToClose] at h
  | c :: rest, inside, h => by
    unfold upToClose at h
    by_cases hc : c = ']'
    · rw [if_pos hc] at h
      subst hc
      injection h with h2
      subst h2
      exact ⟨by simp, rest, rfl⟩
    · rw [if_neg hc] at h
      cases hr : upToClose rest with
      | none => rw [hr] at h; simp at h
      | some i =>
        rw [hr] at h
        simp only [Option.map_some', Option.some_inj] at h
        obtain ⟨hni, after, hafter⟩ := upToClose_some hr
        subst h
        refine ⟨?_, after, by simp [hafter]⟩
        intro hmem
        rcases List.mem_cons.mp hmem with h1 | h1
        · exact hc h1.symm
        · exact hni h1

lemma bracketCap_some {rest b : List Char} (h : bracketCap rest = some b) :
    ∃ inside after, rest = '[' :: (inside ++ ']' :: after) ∧
      b = '[' :: (inside ++ [']']) ∧ ']' ∉ inside := by
  unfold bracketCap at h
  split at h
  · rename_i r
    cases hr : upToClose r with
    | none => rw [hr] at h; simp at h
    | some inside =>
      rw [hr] at h
      simp only [Option.map_some', Option.some_inj] at h
      obtain ⟨hni, after, hafter⟩ := upToClose_some hr
      exact ⟨inside, after, by rw [hafter], h.symm, hni⟩
  · simp at h

lemma isPrefixOf_eq_take :
    ∀ (p l : List Char), p.isPrefixOf l = (l.take p.length == p)
  | [], l => by simp [List.isPrefixOf]
  | a :: p, [] => by simp [List.isPrefixOf]
  | a :: p, b :: l => by
    simp only [List.isPrefixOf, List.length_cons, List.take_succ_cons,
      List.cons_beq_cons, isPrefixOf_eq_take p l]
    rw [Bool.eq_iff_iff]
    simp only [Bool.and_eq_true, beq_iff_eq]
    constructor
    · rintro ⟨h1, h2⟩; exact ⟨h1.symm, h2⟩
    · rintro ⟨h1, h2⟩; exact ⟨h1.symm, h2⟩

lemma collectUntilBlank_eq :
    ∀ ls : List (List Char),
      collectUntilBlank ls = ls.takeWhile (fun l => !l.isEmpty)
  | [] => rfl
  | l :: ls => by
    by_cases h : l = []
    · subst h; simp [collectUntilBlank, List.takeWhile]
    · have : (!l.isEmpty) = true := by simp [List.isEmpty_iff, h]
      simp [collectUntilBlank, h, List.takeWhile, this, collectUntilBlank_eq ls]

lemma headerMatch_eq_spec (line date : List Char) :
    headerMatch line date = headerMatchSpec line date := by
  unfold headerMatch headerMatchSpec
  rw [isPrefixOf_eq_take]
  simp [List.length_append]

/-! ### Helper lemmas for aggregation -/

lemma sumDur_eq_sum (ds : List Int) : sumDur ds = ds.sum :=
  (List.sum_eq_foldl).symm

lemma foldl_add_map :
    ∀ (f : List Char × List Int → Int) (l : List (List Char × List Int))
      (a : Int), l.foldl (fun acc p => acc + f p) a = a + (l.map f).sum
  | _, [], a => by simp
  | f, p :: l, a => by
    simp only [List.foldl_cons, List.map_cons, List.sum_cons]
    rw [foldl_add_map f l (a + f p)]
    ring

lemma drop_time_range {t1 t2 : List Char} {c : Char} {r4 : List Char} :
    (t1 ++ '-' :: (t2 ++ c :: r4)).drop (t1.length + t2.length + 2) = r4 := by
  have h : t1 ++ '-' :: (t2 ++ c :: r4) = (t1 ++ '-' :: (t2 ++ [c])) ++ r4 := by
    simp
  have hlen : (t1 ++ '-' :: (t2 ++ [c])).length = t1.length + t2.length + 2 := by
    simp
    omega
  rw [h, ← hlen, List.drop_left]

lemma entryShape_of_match {l : List Char} {caps : LineCaps}
    (hm : lineMatch l = some caps) : entryShape l := by
  obtain ⟨r2, c, r4, hstart, hd, hstop, hd2, hA, hB, hC, hD, hE, hnl, -⟩ :=
    lineMatch_inv hm
  have hsplit : (c :: r4).dropWhile wsChar = r4.dropWhile wsChar := by
    simp [List.dropWhile, hE]
  refine ⟨caps.start, caps.stop, c, r4.takeWhile wsChar, r4.dropWhile wsChar,
    ?_, ?_, hA, hB, ?_, hC, hD, hE, ?_, ?_⟩
  · have h1 : l = l.takeWhile classChar ++ l.dropWhile classChar :=
      (List.takeWhile_append_dropWhile classChar l).symm
    have h2 : r2 = r2.takeWhile classChar ++ r2.dropWhile classChar :=
      (List.takeWhile_append_dropWhile classChar r2).symm
    rw [h1, hd, ← hstart, h2, hd2, ← hstop,
      List.takeWhile_append_dropWhile wsChar r4]
  · rw [hstart]; exact List.all_takeWhile
  · rw [hstop]; exact List.all_takeWhile
  · exact List.all_takeWhile
  · rw [dropWhile_self, ← hsplit]
    exact hnl

lemma match_isSome_of_entryShape {l : List Char} (h : entryShape l) :
    (lineMatch l).isSome = true := by
  obtain ⟨t1, t2, c, ws, rest, hl, h1, h2, h3, h4, h5, h6, hc, hws, hnl⟩ := h
  subst hl
  rw [lineMatch_of_decomp h1 h2 h3 h4 h5 h6 hc hws hnl]
  rfl

/-! ### Claims -/

/-- C1, counterexample: the line `25-8 x` matches the entry regex but its
start token `25` is not a valid hour, and `process_line` does not skip the
line: the `.unwrap()` on the time parse panics, a process-level failure,
contradicting the claim that an invalid numeric time is fatal only for that
line and is treated as a non-matching, skipped line. -/
theorem c1_counterexample :
    (process_line (str "25-8 x") none).1 = .panic ∧
    LineResult.panic ≠ LineResult.skip := by decide

/-- C1 (amended): a line that fails the entry regex is skipped, contributes
nothing and leaves `prev_tag` unchanged; but a line that matches the regex
while either normalized time token fails numeric `hour.minute` parsing
makes the process panic (a process-level failure), it is not skipped. -/
theorem c1_amended_fatal_panic (l : List Char) (prev : Option (List Char)) :
    (lineMatch l = none → process_line l prev = (.skip, prev)) ∧
    ∀ caps, lineMatch l = some caps →
      (parseHM (with_mins caps.start) = none ∨
        parseHM (with_mins caps.stop) = none) →
      (process_line l prev).1 = .panic :=
  ⟨fun h => process_line_no_match h,
   fun _ h hbad => process_line_panic_of_bad_time h hbad⟩

/-- C1 witness: a non-matching line is skipped with the state unchanged,
and the matching line `0.60-1 z` (minute 60 out of range) panics. -/
theorem c1_witness :
    process_line (str "not a log line") none = (.skip, none) ∧
    (process_line (str "0.60-1 z") none).1 = .panic :=
  ⟨(c1_amended_fatal_panic (str "not a log line") none).1 (by decide),
   (c1_amended_fatal_panic (str "0.60-1 z") none).2
     ⟨str "0.60", str "1", none⟩ (by decide) (.inl (by decide))⟩

/-- C2, counterexample: the line `1..-2 x` is not of the claimed shape (its
first token `1..` has two dots, while the claim allows at most one dot per
token), yet the line is not skipped: the regex class `[0-9.]{1,5}` accepts
it and the subsequent time parse panics. -/
theorem c2_counterexample :
    claimShape (str "1..-2 x") = false ∧
    process_line (str "1..-2 x") none ≠ (.skip, none) := by decide

/-- C2 (amended): a line is accepted by the entry regex exactly when it
starts with two tokens of digits and dots (in any mix, the pattern does not
limit the number of dots), each 1 to 5 characters, separated by a hyphen
and followed by at least one whitespace character, an optional bracketed
tag and arbitrary trailing text; exactly the lines the regex rejects are
skipped, with nothing recorded and `prev_tag` unchanged. -/
theorem c2_amended_entry_shape (l : List Char) (prev : Option (List Char)) :
    (entryShape l ↔ (lineMatch l).isSome = true) ∧
    (process_line l prev = (.skip, prev) ↔ lineMatch l = none) := by
  constructor
  · exact ⟨match_isSome_of_entryShape, fun hs => by
      cases hm : lineMatch l with
      | none => rw [hm] at hs; simp at hs
      | some caps => exact entryShape_of_match hm⟩
  · constructor
    · intro hsk
      cases hm : lineMatch l with
      | none => rfl
      | some caps =>
        exact absurd (congrArg Prod.fst hsk) (process_line_skip_match hm)
    · exact process_line_no_match

/-- C2 witness: `8-9.30 [t] d` has the entry shape, and a plain text line
is skipped with the state unchanged. -/
theorem c2_witness :
    entryShape (str "8-9.30 [t] d") ∧
    process_line (str "plain text") none = (.skip, none) :=
  ⟨(c2_amended_entry_shape (str "8-9.30 [t] d") none).1.mpr (by decide),
   (c2_amended_entry_shape (str "plain text") none).2.mpr (by decide)⟩

/-- C3, counterexample: on the entry line `8-9  d` (two spaces before the
trailing text) the resolved tag is `" d"` (one of the two whitespace
characters is kept in the tag), while the exact trailing text after the
time range and the first run of whitespace is `"d"`, so the claim's
description of the no-bracket tag fails. -/
theorem c3_counterexample :
    (process_line (str "8-9  d") none).1 = .entry 60 (str " d") ∧
    ((str "8-9  d").drop 3).dropWhile wsChar = str "d" ∧
    str " d" ≠ str "d" := by decide

/-- C3 (amended): on a matching entry line with a bracketed tag, the raw
tag is the bracket capture, the literal bracket text including the
brackets, regardless of the trailing description; without a bracketed tag
the raw tag is the trailing text after the time range and exactly one
whitespace character, so any further whitespace of the separating run stays
inside the tag. -/
theorem c3_amended_tag_resolution (l : List Char) (caps : LineCaps)
    (h : lineMatch l = some caps) :
    (∀ b, caps.bracket = some b → rawTag l caps = b ∧
      ∃ inside, b = '[' :: (inside ++ [']']) ∧ ']' ∉ inside) ∧
    (caps.bracket = none → ∃ c rest2, wsChar c = true ∧
      l = caps.start ++ '-' :: (caps.stop ++ c :: rest2) ∧
      rawTag l caps = rest2) := by
  obtain ⟨c, r4, hdec, hws, hbr⟩ := lineMatch_decomp h
  constructor
  · intro b hb
    refine ⟨by simp [rawTag, hb], ?_⟩
    rw [hb] at hbr
    obtain ⟨inside, after, -, hb2, hni⟩ := bracketCap_some hbr.symm
    exact ⟨inside, hb2, hni⟩
  · intro hb
    refine ⟨c, r4, hws, hdec, ?_⟩
    simp only [rawTag, hb]
    rw [hdec]
    exact drop_time_range

/-- C3 witness: the bracket line `10-11 [w] note` resolves to the literal
bracket text, and the no-bracket line `12-13 task` resolves to the text
after one space. -/
theorem c3_witness :
    (rawTag (str "10-11 [w] note")
        ⟨str "10", str "11", some (str "[w]")⟩ = str "[w]") ∧
    ∃ c rest2, wsChar c = true ∧
      str "12-13 task" = str "12" ++ '-' :: (str "13" ++ c :: rest2) ∧
      rawTag (str "12-13 task") ⟨str "12", str "13", none⟩ = rest2 :=
  ⟨((c3_amended_tag_resolution (str "10-11 [w] note")
      ⟨str "10", str "11", some (str "[w]")⟩ (by decide)).1
        (str "[w]") rfl).1,
   (c3_amended_tag_resolution (str "12-13 task")
      ⟨str "12", str "13", none⟩ (by decide)).2 rfl⟩

/-- C4: on a matching entry line whose raw tag starts with the carry-over
marker while a previous tag exists, the entry's tag resolves to the
previous tag and `prev_tag` keeps that value; on every other matching entry
line `prev_tag` is set to the newly resolved tag before the entry is
recorded, and a recorded entry carries that tag. -/
theorem c4_carry_over_rule (l : List Char) (prev : Option (List Char))
    (caps : LineCaps) (h : lineMatch l = some caps) :
    (∀ pt, prev = some pt →
      carryMarker.isPrefixOf (rawTag l caps) = true →
      (process_line l prev).2 = some pt ∧
      ∀ d t p2, process_line l prev = (.entry d t, p2) → t = pt) ∧
    ((prev = none ∨ carryMarker.isPrefixOf (rawTag l caps) = false) →
      (process_line l prev).2 = some (rawTag l caps) ∧
      ∀ d t p2, process_line l prev = (.entry d t, p2) →
        t = rawTag l caps) := by
  constructor
  · intro pt hpt hmk
    subst hpt
    have hr : resolveTag (rawTag l caps) (some pt) = (pt, some pt) := by
      simp [resolveTag, hmk]
    refine ⟨by rw [process_line_snd h, hr], ?_⟩
    intro d t p2 he
    have ht := process_line_entry_tag h he
    rw [hr] at ht
    exact ht
  · intro hcase
    have hr : resolveTag (rawTag l caps) prev =
        (rawTag l caps, some (rawTag l caps)) := by
      rcases hcase with hc | hc
      · subst hc; rfl
      · cases prev with
        | none => rfl
        | some pt => simp [resolveTag, hc]
    refine ⟨by rw [process_line_snd h, hr], ?_⟩
    intro d t p2 he
    have ht := process_line_entry_tag h he
    rw [hr] at ht
    exact ht

/-- C4 witness: the carry-over line `9.45-10 -"-` with previous tag
`[tag1]` resolves to `[tag1]`, and the line `14.15-16 [tag1] desc` updates
`prev_tag` to its own raw tag. -/
theorem c4_witness :
    (process_line (str "9.45-10 -\"-") (some (str "[tag1]"))).2 =
      some (str "[tag1]") ∧
    (process_line (str "14.15-16 [tag1] desc") (some (str "x"))).2 =
      some (rawTag (str "14.15-16 [tag1] desc")
        ⟨str "14.15", str "16", some (str "[tag1]")⟩) :=
  ⟨((c4_carry_over_rule (str "9.45-10 -\"-") (some (str "[tag1]"))
      ⟨str "9.45", str "10", none⟩ (by decide)).1
        (str "[tag1]") rfl (by decide)).1,
   ((c4_carry_over_rule (str "14.15-16 [tag1] desc") (some (str "x"))
      ⟨str "14.15", str "16", some (str "[tag1]")⟩ (by decide)).2
        (Or.inr (by decide))).1⟩

/-- C5: `find_and_collect_day` returns the contiguous run of lines
beginning at the first line that is exactly equal to the date or starts
with the date followed by a single space, extending up to but excluding the
first blank line after that header (or to end of input); when no line
matches the header, `dayBlockSpec` - and therefore the function - returns
the empty sequence, which is not an error. -/
theorem c5_day_block (content date : List Char) :
    find_and_collect_day content date =
      dayBlockSpec (rustLines content) date := by
  unfold find_and_collect_day
  generalize rustLines content = ls
  induction ls with
  | nil => rfl
  | cons l t ih =>
    unfold findGo dayBlockSpec
    rw [headerMatch_eq_spec]
    cases h : headerMatchSpec l date
    · simp [h, ih]
    · simp [h, collectUntilBlank_eq]

/-- C6: for every non-empty tag mapping, the grand total returned by
`write_durations_collect_total` equals the sum of the per-tag totals over
all tags, which in turn equals the sum of all individual entry durations. -/
theorem c6_grand_total (m : List (List Char × List Int)) (hne : m ≠ []) :
    write_durations_collect_total m = (m.map fun p => sumDur p.2).sum ∧
    (m.map fun p => sumDur p.2).sum = ((m.map fun p => p.2).flatten).sum := by
  refine ⟨?_, ?_⟩
  · unfold write_durations_collect_total
    rw [foldl_add_map (fun p => sumDur p.2) (sortTags m) 0, zero_add]
    have hperm : (sortTags m).Perm m := List.perm_insertionSort _ m
    exact (hperm.map _).sum_eq
  · rw [List.sum_flatten, List.map_map]
    simp only [sumDur_eq_sum]
    rfl

/-- C6 witness: the identities hold on a concrete two-tag mapping. -/
theorem c6_witness :
    write_durations_collect_total [(str "b", [30, 15]), (str "a", [60])] =
      ([(str "b", [30, 15]), (str "a", [60])].map fun p => sumDur p.2).sum ∧
    ([(str "b", [30, 15]), (str "a", [60])].map fun p => sumDur p.2).sum =
      (([(str "b", [30, 15]), (str "a", [60])].map fun p => p.2).flatten).sum :=
  c6_grand_total [(str "b", [30, 15]), (str "a", [60])] (by decide)

/-- C7: the comparison against the fixed expected workday of 7 hours 30
minutes computes `diff = total - expected`, returns no difference exactly
when the total equals 7h30m, and otherwise returns the signed diff, which
is positive exactly when the total exceeds the expected day and negative
exactly when it falls short. -/
theorem c7_total_vs_expected (total : Int) :
    (write_total_diff total = none ↔ total = full_day) ∧
    ∀ d, write_total_diff total = some d →
      d = total - full_day ∧ (0 < d ↔ full_day < total) ∧
        (d < 0 ↔ total < full_day) := by
  unfold write_total_diff
  constructor
  · split
    · rename_i h; simp; omega
    · rename_i h; simp; omega
  · intro d hd
    split at hd
    · simp at hd
    · rename_i h
      injection hd with hd
      omega

/-- C7 witness: a total of 8 hours gives the diff `+00:30`, and a total of
exactly 7h30m gives no diff. -/
theorem c7_witness :
    ((30 : Int) = 480 - full_day ∧ ((0 : Int) < 30 ↔ full_day < 480) ∧
      ((30 : Int) < 0 ↔ (480 : Int) < full_day)) ∧
    write_total_diff 450 = none :=
  ⟨(c7_total_vs_expected 480).2 30 (by decide),
   (c7_total_vs_expected 450).1.mpr (by decide)⟩

/-- C8: the `HH:MM` rendering of a whole-minute duration uses the hour
field `natAbs m / 60` and the minute field `natAbs m % 60`, each zero
padded to at least two digits; 0 minutes renders as `00:00`, 90 minutes as
`01:30`, and -90 minutes as `01:30` with the sign rendered separately as a
leading `-`. -/
theorem c8_hhmm_format :
    (∀ m : Int,
      humanFmt m = pad2 (m.natAbs / 60) ++ ':' :: pad2 (m.natAbs % 60)) ∧
    humanFmt 0 = str "00:00" ∧ humanFmt 90 = str "01:30" ∧
    humanFmt (-90) = str "01:30" ∧ diffFmt (-90) = '-' :: humanFmt 90 := by
  refine ⟨fun m => ?_, by decide, by decide, by decide, by decide⟩
  unfold humanFmt
  rw [Int.natAbs_tdiv]
  rfl

/-- C9: when a matching entry line whose raw tag starts with the carry-over
marker is parsed with no previous tag, the literal marker text is used as
the entry's tag and stored into `prev_tag`, so an immediately following
carry-over line also resolves to the literal marker text rather than to any
real tag. -/
theorem c9_carry_without_previous (l : List Char) (caps : LineCaps)
    (h : lineMatch l = some caps)
    (hmk : carryMarker.isPrefixOf (rawTag l caps) = true) :
    (process_line l none).2 = some (rawTag l caps) ∧
    (∀ d t p2, process_line l none = (.entry d t, p2) → t = rawTag l caps) ∧
    ∀ l2 caps2, lineMatch l2 = some caps2 →
      carryMarker.isPrefixOf (rawTag l2 caps2) = true →
      (process_line l2 (process_line l none).2).2 = some (rawTag l caps) ∧
      ∀ d t p2, process_line l2 (process_line l none).2 = (.entry d t, p2) →
        t = rawTag l caps := by
  have h1 : (process_line l none).2 = some (rawTag l caps) := by
    rw [process_line_snd h]
    rfl
  refine ⟨h1, ?_, ?_⟩
  · intro d t p2 he
    exact process_line_entry_tag h he
  · intro l2 caps2 h2 hmk2
    rw [h1]
    have hr : resolveTag (rawTag l2 caps2) (some (rawTag l caps)) =
        (rawTag l caps, some (rawTag l caps)) := by
      simp [resolveTag, hmk2]
    refine ⟨by rw [process_line_snd h2, hr], ?_⟩
    intro d t p2 he
    have ht := process_line_entry_tag h2 he
    rw [hr] at ht
    exact ht

/-- C9 witness: the first carry-over line `7-8 -"-q` with no previous tag
stores its literal marker text, and the immediately following carry-over
line `10-11 -"-` resolves to that literal text. -/
theorem c9_witness :
    (process_line (str "7-8 -\"-q") none).2 = some (str "-\"-q") ∧
    (process_line (str "10-11 -\"-")
      (process_line (str "7-8 -\"-q") none).2).2 = some (str "-\"-q") := by
  have h := c9_carry_without_previous (str "7-8 -\"-q")
    ⟨str "7", str "8", none⟩ (by decide) (by decide)
  have hraw : rawTag (str "7-8 -\"-q") ⟨str "7", str "8", none⟩ =
      str "-\"-q" := by decide
  refine ⟨?_, ?_⟩
  · have h1 := h.1
    rwa [hraw] at h1
  · have h2 := (h.2.2 (str "10-11 -\"-") ⟨str "10", str "11", none⟩
      (by decide) (by decide)).1
    rwa [hraw] at h2

/-- C10: every recorded entry's duration, the end time of day minus the
start time of day within one calendar day, lies strictly between -24 hours
and +24 hours, and an entry whose end clock time is earlier than its start
time produces a negative duration, never a wrapped-around positive one. -/
theorem c10_duration_window (l : List Char) (prev p2 : Option (List Char))
    (d : Int) (t : List Char)
    (he : process_line l prev = (.entry d t, p2)) :
    (-1440 < d ∧ d < 1440) ∧
    ∃ caps s e, lineMatch l = some caps ∧
      parseHM (with_mins caps.start) = some s ∧
      parseHM (with_mins caps.stop) = some e ∧
      d = timeMin e - timeMin s ∧ (timeMin e < timeMin s → d < 0) := by
  obtain ⟨caps, s, e, hm, hs, hep, hd, -, -⟩ := process_line_entry_inv he
  obtain ⟨hs1, hs2⟩ := parseHM_bounds hs
  obtain ⟨he1, he2⟩ := parseHM_bounds hep
  subst hd
  refine ⟨?_, caps, s, e, hm, hs, hep, rfl, ?_⟩
  · simp only [timeMin]
    omega
  · intro hlt
    omega

/-- C10 witness: the entry line `23-8 x`, whose end clock time is earlier
than its start, records the duration -900 minutes, inside the window. -/
theorem c10_witness :
    ((-1440 : Int) < -900 ∧ (-900 : Int) < 1440) ∧
    ∃ caps s e, lineMatch (str "23-8 x") = some caps ∧
      parseHM (with_mins caps.start) = some s ∧
      parseHM (with_mins caps.stop) = some e ∧
      (-900 : Int) = timeMin e - timeMin s ∧
      (timeMin e < timeMin s → (-900 : Int) < 0) :=
  c10_duration_window (str "23-8 x") none (some (str "x")) (-900) (str "x")
    (by decide)
